import Mathlib

/-!
Shallow embedding of the TruthMeter fact-check pipeline (backend/src).

Numbers that the TypeScript source manipulates at one-decimal precision
(`parseFloat(x.toFixed(1))`) are modelled as rationals, with `toFixed1`
rounding to the nearest tenth; machine floating point is abstracted to
exact decimal arithmetic, which is the precision the code's own
comments and checks (`sum !== 100`) are written against.
-/

namespace TruthMeter

/-- Model of JavaScript `parseFloat(x.toFixed(1))`: round to one decimal. -/
def toFixed1 (x : ℚ) : ℚ := (round (10 * x) : ℤ) / 10

/-- A rational that is an integer number of tenths (a one-decimal value). -/
def IsTenth (x : ℚ) : Prop := ∃ k : ℤ, x = (k : ℚ) / 10

lemma isTenth_toFixed1 (x : ℚ) : IsTenth (toFixed1 x) := ⟨round (10 * x), rfl⟩

lemma toFixed1_eq_self {x : ℚ} (h : IsTenth x) : toFixed1 x = x := by
  obtain ⟨k, rfl⟩ := h
  have h10 : (10 : ℚ) * ((k : ℚ) / 10) = (k : ℚ) := by ring
  rw [toFixed1, h10, round_intCast]

lemma IsTenth.add {x y : ℚ} (hx : IsTenth x) (hy : IsTenth y) : IsTenth (x + y) := by
  obtain ⟨k, rfl⟩ := hx
  obtain ⟨m, rfl⟩ := hy
  exact ⟨k + m, by push_cast; ring⟩

lemma IsTenth.sub {x y : ℚ} (hx : IsTenth x) (hy : IsTenth y) : IsTenth (x - y) := by
  obtain ⟨k, rfl⟩ := hx
  obtain ⟨m, rfl⟩ := hy
  exact ⟨k - m, by push_cast; ring⟩

lemma isTenth_hundred : IsTenth (100 : ℚ) := ⟨1000, by norm_num⟩

/-!
## Analyzer percentage aggregation

From `OpenAIService.analyzeFactCheck` (the batched analyzer,
src/unnamed/part_005, lines 179-193): percentages are computed from the
category counts over all categorized sources, each rounded to one
decimal independently; if the three do not sum to 100 the residual is
added to `neutralScore`.
-/

/-- The triple `(agreementScore, disagreementScore, neutralScore)` computed by
`analyzeFactCheck` from the counts of supporting / contradicting / neutral
sources. -/
def analyzerScores (supportingCount contradictingCount neutralCount : ℕ) : ℚ × ℚ × ℚ :=
  let total : ℚ := (supportingCount : ℚ) + (contradictingCount : ℚ) + (neutralCount : ℚ)
  let agreementScore := toFixed1 (((supportingCount : ℚ) / total) * 100)
  let disagreementScore := toFixed1 (((contradictingCount : ℚ) / total) * 100)
  let neutralScore := toFixed1 (((neutralCount : ℚ) / total) * 100)
  let sum := agreementScore + disagreementScore + neutralScore
  if sum ≠ 100 then
    (agreementScore, disagreementScore, toFixed1 (neutralScore + (100 - sum)))
  else
    (agreementScore, disagreementScore, neutralScore)

/-!
## `OpenAIService.normalizePercentages`

From backend/src/services/openai.ts lines 17-48: divide each value by the
total, round to one decimal, and if the rounded values do not sum to 100 add
the (rounded) residual to the largest value, preferring agreement, then
disagreement, then neutral.
-/

def normalizePercentages (agreement disagreement neutral : ℚ) : ℚ × ℚ × ℚ :=
  let total := agreement + disagreement + neutral
  let agreementScore := toFixed1 ((agreement / total) * 100)
  let disagreementScore := toFixed1 ((disagreement / total) * 100)
  let neutralScore := toFixed1 ((neutral / total) * 100)
  let sum := agreementScore + disagreementScore + neutralScore
  if sum ≠ 100 then
    let diff := toFixed1 (100 - sum)
    if agreementScore ≥ disagreementScore ∧ agreementScore ≥ neutralScore then
      (toFixed1 (agreementScore + diff), disagreementScore, neutralScore)
    else if disagreementScore ≥ agreementScore ∧ disagreementScore ≥ neutralScore then
      (agreementScore, toFixed1 (disagreementScore + diff), neutralScore)
    else
      (agreementScore, disagreementScore, toFixed1 (neutralScore + diff))
  else
    (agreementScore, disagreementScore, neutralScore)

/-!
## Orchestrator defensive re-correction

From `FactCheckerService.analyzePost` (backend/src/services/factChecker.ts
lines 72-83): if the analyzer's three scores do not sum to 100 (and the sum
is positive), add the rounded residual to the largest score, preferring
agreement, then disagreement, then neutral.
-/

def orchestratorCorrect (agreement disagreement neutral : ℚ) : ℚ × ℚ × ℚ :=
  let sum := agreement + disagreement + neutral
  if sum ≠ 100 ∧ sum > 0 then
    let diff := toFixed1 (100 - sum)
    if agreement ≥ disagreement ∧ agreement ≥ neutral then
      (toFixed1 (agreement + diff), disagreement, neutral)
    else if disagreement ≥ agreement ∧ disagreement ≥ neutral then
      (agreement, toFixed1 (disagreement + diff), neutral)
    else
      (agreement, disagreement, toFixed1 (neutral + diff))
  else
    (agreement, disagreement, neutral)

lemma analyzerScores_sum (s c u : ℕ) :
    (analyzerScores s c u).1 + (analyzerScores s c u).2.1 + (analyzerScores s c u).2.2 = 100 := by
  unfold analyzerScores
  set total : ℚ := (s : ℚ) + (c : ℚ) + (u : ℚ) with htotal
  set A := toFixed1 (((s : ℚ) / total) * 100) with hA
  set D := toFixed1 (((c : ℚ) / total) * 100) with hD
  set N := toFixed1 (((u : ℚ) / total) * 100) with hN
  by_cases h : A + D + N = 100
  · simp [h]
  · have hten : IsTenth (N + (100 - (A + D + N))) := by
      have h1 : IsTenth N := hN ▸ isTenth_toFixed1 _
      have h2 : IsTenth (A + D + N) := by
        refine IsTenth.add (IsTenth.add ?_ ?_) h1
        · exact hA ▸ isTenth_toFixed1 _
        · exact hD ▸ isTenth_toFixed1 _
      exact h1.add (isTenth_hundred.sub h2)
    simp only [if_pos h, toFixed1_eq_self hten]
    ring

lemma orchestratorCorrect_of_sum_eq {a d n : ℚ} (h : a + d + n = 100) :
    orchestratorCorrect a d n = (a, d, n) := by
  unfold orchestratorCorrect
  simp [h]

end TruthMeter

namespace TruthMeter

inductive Relevance where
  | supporting
  | contradicting
  | neutral
deriving DecidableEq, Repr

/-- A categorized source as produced by `categorizeBatch`
(`{url, title, relevance}`). -/
structure Source where
  url : List Char
  title : String
  relevance : Relevance
deriving DecidableEq, Repr

/-- The Analyzer's percentage aggregation over all categorized sources
(src/unnamed/part_005 lines 179-193), at the list level: the three category
counts come from `filter`, the denominator is the length of the whole list. -/
def scoresOf (allCategorizedSources : List Source) : ℚ × ℚ × ℚ :=
  let supportingCount :=
    (allCategorizedSources.filter (fun s => s.relevance = .supporting)).length
  let contradictingCount :=
    (allCategorizedSources.filter (fun s => s.relevance = .contradicting)).length
  let neutralCount :=
    (allCategorizedSources.filter (fun s => s.relevance = .neutral)).length
  let total : ℚ := (allCategorizedSources.length : ℚ)
  let agreementScore := toFixed1 (((supportingCount : ℚ) / total) * 100)
  let disagreementScore := toFixed1 (((contradictingCount : ℚ) / total) * 100)
  let neutralScore := toFixed1 (((neutralCount : ℚ) / total) * 100)
  let sum := agreementScore + disagreementScore + neutralScore
  if sum ≠ 100 then
    (agreementScore, disagreementScore, toFixed1 (neutralScore + (100 - sum)))
  else
    (agreementScore, disagreementScore, neutralScore)

lemma filter_relevance_partition (l : List Source) :
    (l.filter (fun s => s.relevance = .supporting)).length +
      (l.filter (fun s => s.relevance = .contradicting)).length +
      (l.filter (fun s => s.relevance = .neutral)).length = l.length := by
  induction l with
  | nil => rfl
  | cons s rest ih =>
    rcases hrel : s.relevance <;>
      simp [List.filter_cons, hrel, ← ih] <;> omega

/-- The list-level aggregation coincides with the count-level arithmetic:
the denominator `allCategorizedSources.length` equals the sum of the three
category counts, every source being labelled by exactly one category. -/
lemma scoresOf_eq_analyzerScores (l : List Source) :
    scoresOf l =
      analyzerScores (l.filter (fun s => s.relevance = .supporting)).length
        (l.filter (fun s => s.relevance = .contradicting)).length
        (l.filter (fun s => s.relevance = .neutral)).length := by
  unfold scoresOf analyzerScores
  rw [← filter_relevance_partition l]
  push_cast
  rfl

/-- C1: every triple of percentage scores produced by the analysis pipeline —
the Analyzer's normalized output and the Orchestrator's final result after
its defensive re-correction — sums to exactly 100 (at one-decimal precision,
modelled as exact rationals), for any non-degenerate categorized-source list. -/
theorem claim1_percentage_sum_invariant (l : List Source) (h : l ≠ []) :
    ((scoresOf l).1 + (scoresOf l).2.1 + (scoresOf l).2.2 = 100) ∧
    ((orchestratorCorrect (scoresOf l).1 (scoresOf l).2.1 (scoresOf l).2.2).1 +
     (orchestratorCorrect (scoresOf l).1 (scoresOf l).2.1 (scoresOf l).2.2).2.1 +
     (orchestratorCorrect (scoresOf l).1 (scoresOf l).2.1 (scoresOf l).2.2).2.2 = 100) := by
  have hsum : (scoresOf l).1 + (scoresOf l).2.1 + (scoresOf l).2.2 = 100 := by
    rw [scoresOf_eq_analyzerScores]
    exact analyzerScores_sum _ _ _
  refine ⟨hsum, ?_⟩
  rw [orchestratorCorrect_of_sum_eq hsum]
  exact hsum

/-- Witness for C1 on a three-source list (one source per category,
an adversarial near-even split: 33.3 + 33.3 + 33.3 drifts to 99.9). -/
theorem claim1_percentage_sum_invariant_witness :
    ([⟨"https://a.com".toList, "a", Relevance.supporting⟩,
      ⟨"https://b.com".toList, "b", Relevance.contradicting⟩,
      ⟨"https://c.com".toList, "c", Relevance.neutral⟩] : List Source) ≠ [] ∧
    ((scoresOf [⟨"https://a.com".toList, "a", Relevance.supporting⟩,
        ⟨"https://b.com".toList, "b", Relevance.contradicting⟩,
        ⟨"https://c.com".toList, "c", Relevance.neutral⟩]).1 +
      (scoresOf [⟨"https://a.com".toList, "a", Relevance.supporting⟩,
        ⟨"https://b.com".toList, "b", Relevance.contradicting⟩,
        ⟨"https://c.com".toList, "c", Relevance.neutral⟩]).2.1 +
      (scoresOf [⟨"https://a.com".toList, "a", Relevance.supporting⟩,
        ⟨"https://b.com".toList, "b", Relevance.contradicting⟩,
        ⟨"https://c.com".toList, "c", Relevance.neutral⟩]).2.2 = 100) := by
  refine ⟨by simp, (claim1_percentage_sum_invariant _ (by simp)).1⟩

lemma normalizePercentages_sum (a d n : ℚ) :
    (normalizePercentages a d n).1 + (normalizePercentages a d n).2.1 +
      (normalizePercentages a d n).2.2 = 100 := by
  unfold normalizePercentages
  set total : ℚ := a + d + n with htotal
  set A := toFixed1 ((a / total) * 100) with hA
  set D := toFixed1 ((d / total) * 100) with hD
  set N := toFixed1 ((n / total) * 100) with hN
  have htA : IsTenth A := hA ▸ isTenth_toFixed1 _
  have htD : IsTenth D := hD ▸ isTenth_toFixed1 _
  have htN : IsTenth N := hN ▸ isTenth_toFixed1 _
  have htS : IsTenth (A + D + N) := (htA.add htD).add htN
  have hdiff : IsTenth (100 - (A + D + N)) := isTenth_hundred.sub htS
  by_cases h : A + D + N = 100
  · simp [h]
  · simp only [if_pos h, toFixed1_eq_self hdiff]
    by_cases h1 : A ≥ D ∧ A ≥ N
    · simp only [if_pos h1, toFixed1_eq_self ((htA.add hdiff))]
      ring
    · simp only [if_neg h1]
      by_cases h2 : D ≥ A ∧ D ≥ N
      · simp only [if_pos h2, toFixed1_eq_self ((htD.add hdiff))]
        ring
      · simp only [if_neg h2, toFixed1_eq_self ((htN.add hdiff))]
        ring

/-- C2 counterexample: at category counts 1 / 1 / 1 the independently rounded
percentages are (33.3, 33.3, 33.3), summing to 99.9.  The claim (and the
`normalizePercentages` helper, which implements it) put the 0.1 residual on
the agreement score (largest, first in the tie order), but the Analyzer's
aggregation in `analyzeFactCheck` puts it on the neutral score
unconditionally. -/
theorem claim2_counterexample :
    analyzerScores 1 1 1 = (333/10, 333/10, 334/10) ∧
    normalizePercentages 1 1 1 = (334/10, 333/10, 333/10) ∧
    analyzerScores 1 1 1 ≠ normalizePercentages 1 1 1 := by
  refine ⟨?_, ?_, ?_⟩
  · unfold analyzerScores
    norm_num [toFixed1, round_eq]
  · unfold normalizePercentages
    norm_num [toFixed1, round_eq]
  · unfold analyzerScores normalizePercentages
    norm_num [toFixed1, round_eq]

/-- C2 amended: `OpenAIService.normalizePercentages` (and the Orchestrator's
re-correction) add the residual to the currently largest value with tie order
agreement, disagreement, neutral, as the claim states; but the live
Analyzer's aggregation (`analyzeFactCheck`, src/unnamed/part_005) rounds the
three percentages independently, leaves agreement and disagreement
untouched, and adds any residual unconditionally to the neutral score.  All
of them produce triples summing to exactly 100. -/
theorem claim2_normalization_amended (s c u : ℕ) (h : 0 < s + c + u) :
    ((analyzerScores s c u).1
        = toFixed1 (((s : ℚ) / ((s : ℚ) + (c : ℚ) + (u : ℚ))) * 100)) ∧
    ((analyzerScores s c u).2.1
        = toFixed1 (((c : ℚ) / ((s : ℚ) + (c : ℚ) + (u : ℚ))) * 100)) ∧
    ((analyzerScores s c u).1 + (analyzerScores s c u).2.1 +
        (analyzerScores s c u).2.2 = 100) ∧
    ((normalizePercentages (s : ℚ) (c : ℚ) (u : ℚ)).1 +
        (normalizePercentages (s : ℚ) (c : ℚ) (u : ℚ)).2.1 +
        (normalizePercentages (s : ℚ) (c : ℚ) (u : ℚ)).2.2 = 100) := by
  refine ⟨?_, ?_, analyzerScores_sum s c u, normalizePercentages_sum _ _ _⟩
  · unfold analyzerScores
    by_cases hif :
        toFixed1 (((s : ℚ) / ((s : ℚ) + (c : ℚ) + (u : ℚ))) * 100) +
          toFixed1 (((c : ℚ) / ((s : ℚ) + (c : ℚ) + (u : ℚ))) * 100) +
          toFixed1 (((u : ℚ) / ((s : ℚ) + (c : ℚ) + (u : ℚ))) * 100) = 100 <;>
      simp [hif]
  · unfold analyzerScores
    by_cases hif :
        toFixed1 (((s : ℚ) / ((s : ℚ) + (c : ℚ) + (u : ℚ))) * 100) +
          toFixed1 (((c : ℚ) / ((s : ℚ) + (c : ℚ) + (u : ℚ))) * 100) +
          toFixed1 (((u : ℚ) / ((s : ℚ) + (c : ℚ) + (u : ℚ))) * 100) = 100 <;>
      simp [hif]

/-- Witness for the amended C2 at counts 1 / 1 / 1. -/
theorem claim2_normalization_amended_witness :
    (0 < 1 + 1 + 1) ∧
    ((analyzerScores 1 1 1).1 + (analyzerScores 1 1 1).2.1 +
        (analyzerScores 1 1 1).2.2 = 100) := by
  exact ⟨by norm_num, (claim2_normalization_amended 1 1 1 (by norm_num)).2.2.1⟩

/-!
## Analyzer call flow and error handling

Model of `OpenAIService.analyzeFactCheck` (src/unnamed/part_005).  Each
external LLM call is modelled by its observable outcome: the provider call
rejected, the completion had no message content, or content was returned
(with `none` modelling `JSON.parse` throwing on malformed output).  The
whole body runs inside one `try`; any throw is caught and rethrown as
`Failed to analyze content with AI. Please try again.`.
-/

/-- Payload of the summary LLM call (`{accuracyScore, summary}`). -/
structure SummaryData where
  accuracyScore : ℚ
  summary : String
deriving DecidableEq, Repr

/-- The analyzer's return value (`ClaudeAnalysis` with the fields produced by
the batched analyzer: scores, summary, translations, categorized sources). -/
structure ClaudeAnalysis where
  accuracyScore : ℚ
  agreementScore : ℚ
  disagreementScore : ℚ
  neutralScore : ℚ
  summary : String
  summaryTranslations : List (String × String)
  sources : List Source
deriving DecidableEq, Repr

/-- Observable outcome of one LLM chat-completion call. -/
inductive LLMCall (α : Type) where
  | throwErr
  | noContent
  | content (parsed : Option α)

/-- Error message of `analyzeFactCheck`'s catch-all handler. -/
def analyzeFailMsg : String := "Failed to analyze content with AI. Please try again."

/-- `categorizeBatch`: throws on a rejected call, on missing content
(`No response from OpenAI`) and on malformed JSON; otherwise returns the
parsed batch. -/
def categorizeBatch (resp : LLMCall (List Source)) : Except String (List Source) :=
  match resp with
  | .throwErr => .error "provider call failed"
  | .noContent => .error "No response from OpenAI"
  | .content none => .error "JSON parse failed"
  | .content (some sources) => .ok sources

/-- `Promise.all` over the per-batch categorization calls: succeeds only if
every batch call succeeds. -/
def runBatches : List (LLMCall (List Source)) → Except String (List (List Source))
  | [] => .ok []
  | r :: rest =>
    match categorizeBatch r with
    | .error e => .error e
    | .ok l =>
      match runBatches rest with
      | .error e => .error e
      | .ok ls => .ok (l :: ls)

/-- `analyzeFactCheck` after the categorization batches have succeeded
(src/unnamed/part_005 lines 176-268): aggregate the percentages over all
categorized sources (`scoresOf`), then run the summary call — whose missing
content falls back to the default `{accuracyScore: 50, summary: "Analysis
completed."}` but whose rejection or malformed JSON throws — then the
translation call, whose missing content degrades to `{}` but whose rejection
or malformed JSON likewise throws into the catch-all. -/
def afterBatches (batchOuts : List (List Source)) (summaryResp : LLMCall SummaryData)
    (translationResp : LLMCall (List (String × String))) :
    Except String ClaudeAnalysis :=
  let allCategorizedSources := batchOuts.flatten
  let sc := scoresOf allCategorizedSources
  match summaryResp with
  | .throwErr => .error analyzeFailMsg
  | .content none => .error analyzeFailMsg
  | _ =>
    let summaryData :=
      match summaryResp with
      | .content (some sd) => sd
      | _ => ⟨50, "Analysis completed."⟩
    match translationResp with
    | .throwErr => .error analyzeFailMsg
    | .content none => .error analyzeFailMsg
    | .noContent =>
      .ok ⟨toFixed1 summaryData.accuracyScore, sc.1, sc.2.1, sc.2.2,
        summaryData.summary, [], allCategorizedSources⟩
    | .content (some translations) =>
      .ok ⟨toFixed1 summaryData.accuracyScore, sc.1, sc.2.1, sc.2.2,
        summaryData.summary, translations, allCategorizedSources⟩

/-- `analyzeFactCheck` (src/unnamed/part_005 lines 151-273), as a function of
the outcomes of its external calls: the per-batch categorization calls, the
summary call and the translation call. -/
def analyzeFactCheck (batchResps : List (LLMCall (List Source)))
    (summaryResp : LLMCall SummaryData)
    (translationResp : LLMCall (List (String × String))) :
    Except String ClaudeAnalysis :=
  match runBatches batchResps with
  | .error _ => .error analyzeFailMsg
  | .ok batchOuts => afterBatches batchOuts summaryResp translationResp

/-- C3 counterexample: with one successfully categorized batch and a
successful summary call, a rejected translation call makes the whole
`analyzeFactCheck` fail — the outer catch rethrows it as the generic
analysis failure instead of degrading to "no translations". -/
theorem claim3_counterexample :
    analyzeFactCheck
      [LLMCall.content (some [⟨"https://a.com/x".toList, "a", Relevance.supporting⟩])]
      (LLMCall.content (some ⟨50, "ok"⟩))
      LLMCall.throwErr
    = .error analyzeFailMsg := by
  rfl

lemma runBatches_ok_of_all_ok {batchResps : List (LLMCall (List Source))}
    (h : ∀ r ∈ batchResps, ∃ l, r = .content (some l)) :
    ∃ outs, runBatches batchResps = .ok outs := by
  induction batchResps with
  | nil => exact ⟨[], rfl⟩
  | cons r rest ih =>
    obtain ⟨l, rfl⟩ := h r (List.mem_cons_self r rest)
    obtain ⟨outs, houts⟩ := ih (fun r' hr' => h r' (List.mem_cons_of_mem _ hr'))
    exact ⟨l :: outs, by simp [runBatches, categorizeBatch, houts]⟩

/-- C3 amended: the translation step is only partially isolated.  When the
categorization batches and the summary call succeed, a translation response
with missing/empty content degrades gracefully — the analysis completes with
no translations and the original-language summary — but a rejected
translation call, or translation content that fails to parse, fails the
whole `analyzeFactCheck` call with the generic analysis error. -/
theorem claim3_translation_amended (batchResps : List (LLMCall (List Source)))
    (sd : SummaryData)
    (hb : ∀ r ∈ batchResps, ∃ l, r = .content (some l)) :
    (∃ r, analyzeFactCheck batchResps (.content (some sd)) .noContent = .ok r ∧
        r.summaryTranslations = [] ∧ r.summary = sd.summary) ∧
    analyzeFactCheck batchResps (.content (some sd)) .throwErr
      = .error analyzeFailMsg ∧
    analyzeFactCheck batchResps (.content (some sd)) (.content none)
      = .error analyzeFailMsg := by
  obtain ⟨outs, houts⟩ := runBatches_ok_of_all_ok hb
  refine ⟨?_, ?_, ?_⟩
  · simp only [analyzeFactCheck, houts, afterBatches]
    exact ⟨_, rfl, rfl, rfl⟩
  · simp only [analyzeFactCheck, houts, afterBatches]
  · simp only [analyzeFactCheck, houts, afterBatches]

/-- Witness for the amended C3: one categorized batch, successful summary,
empty translation content. -/
theorem claim3_translation_amended_witness :
    (∀ r ∈ ([LLMCall.content
          (some [(⟨"https://a.com/x".toList, "a", Relevance.supporting⟩ : Source)])] :
        List (LLMCall (List Source))),
        ∃ l, r = LLMCall.content (some l)) ∧
    (∃ r, analyzeFactCheck
        [LLMCall.content
          (some [(⟨"https://a.com/x".toList, "a", Relevance.supporting⟩ : Source)])]
        (LLMCall.content (some ⟨50, "ok"⟩)) .noContent = .ok r ∧
        r.summaryTranslations = [] ∧ r.summary = "ok") := by
  refine ⟨?_, ?_⟩
  · intro r hr
    simp only [List.mem_singleton] at hr
    exact ⟨_, hr⟩
  · exact (claim3_translation_amended _ ⟨50, "ok"⟩
      (by intro r hr; simp only [List.mem_singleton] at hr; exact ⟨_, hr⟩)).1

/-!
## Source retrieval (`SerperService`, backend/src/services/serper.ts)

Each page fetch is modelled by its outcome: the HTTP call failed (rejected
fetch, non-ok status, or JSON error — all caught inside `searchPage`), or it
returned a (possibly empty) `organic` result list.
-/

/-- One entry of the Serper API's `organic` array. -/
structure SerperApiResult where
  title : String
  link : String
  snippet : String
  date : Option String
deriving DecidableEq, Repr

/-- One retrieval result (`SerperSearchResult`). -/
structure SerperSearchResult where
  url : String
  title : String
  content : String
  score : ℚ
  published_date : Option String
deriving DecidableEq, Repr

/-- Outcome of one page request to the provider. -/
inductive PageOutcome where
  | fail
  | ok (organic : List SerperApiResult)

/-- `SerperService.searchPage`: a failing page returns `[]` (the catch
swallows the error); an empty `organic` list returns `[]`; otherwise results
are mapped with a position-derived score `1 - ((page-1)*10 + index)/100`. -/
def searchPage (outcome : PageOutcome) (page : ℕ) : List SerperSearchResult :=
  match outcome with
  | .fail => []
  | .ok organic =>
    if organic.isEmpty then []
    else organic.mapIdx fun idx r =>
      ⟨r.link, r.title, r.snippet, 1 - ((((page : ℚ) - 1) * 10 + (idx : ℚ)) / 100), r.date⟩

/-- URL deduplication loop of `SerperService.search` (`seenUrls` set,
first-seen kept). -/
def dedupUrlAux (seen : List String) : List SerperSearchResult → List SerperSearchResult
  | [] => []
  | r :: rest =>
    if r.url ∈ seen then dedupUrlAux seen rest
    else r :: dedupUrlAux (r.url :: seen) rest

/-- `allResults` in `SerperService.search`: pages `1..numPages` (at most 10,
`numPages = min(ceil(maxResults/10), 10)`) fetched in parallel and flattened
in page order (provider rank order). -/
def mergedResults (outcomes : ℕ → PageOutcome) (maxResults : ℕ) : List SerperSearchResult :=
  let resultsPerPage := 10
  let numPages := min ((maxResults + resultsPerPage - 1) / resultsPerPage) 10
  (List.range numPages).flatMap fun i => searchPage (outcomes (i + 1)) (i + 1)

/-- The result list of `SerperService.search`: the merged page results,
deduplicated by exact URL and trimmed to `maxResults`. -/
def searchList (outcomes : ℕ → PageOutcome) (maxResults : ℕ) : List SerperSearchResult :=
  (dedupUrlAux [] (mergedResults outcomes maxResults)).take maxResults

/-- Error message of `search`'s catch branch. -/
def serperFailMsg : String := "Failed to search sources with Serper. Please try again."

/-- `SerperService.search`: the `try` body cannot throw — every page failure
is already caught inside `searchPage` and `Promise.all` therefore always
resolves — so the catch branch throwing `serperFailMsg` is unreachable and
the call always resolves with the merged list. -/
def search (outcomes : ℕ → PageOutcome) (maxResults : ℕ) :
    Except String (List SerperSearchResult) :=
  .ok (searchList outcomes maxResults)

lemma flatMap_const_nil {α β : Type} (l : List α) :
    (l.flatMap fun _ => ([] : List β)) = [] := by
  induction l with
  | nil => rfl
  | cons x xs ih => simp [ih]

/-- C4 counterexample: when the provider is completely unreachable (every
page request fails), `search` does not fail with a `SourceRetrievalError` —
it resolves successfully with an empty list. -/
theorem claim4_counterexample :
    search (fun _ => PageOutcome.fail) 100 = .ok [] ∧
    ¬ ∃ e, search (fun _ => PageOutcome.fail) 100 = .error e := by
  refine ⟨rfl, ?_⟩
  rintro ⟨e, he⟩
  simp [search] at he

/-- C4 amended: each individual page fetch that errors yields an empty
result list instead of aborting the retrieval, and when the entire retrieval
fails (every page fails) the `search` call still resolves — with an empty
list, never with the `SourceRetrievalError` of its unreachable catch branch;
the zero-source condition is then surfaced by the Orchestrator as its
no-sources error. -/
theorem claim4_retrieval_amended (outcomes : ℕ → PageOutcome) (maxResults page : ℕ) :
    searchPage PageOutcome.fail page = [] ∧
    (∃ l, search outcomes maxResults = .ok l) ∧
    ((∀ q, outcomes q = PageOutcome.fail) → search outcomes maxResults = .ok []) := by
  refine ⟨rfl, ⟨_, rfl⟩, fun hall => ?_⟩
  have hpage : ∀ i : ℕ, searchPage (outcomes (i + 1)) (i + 1) = [] := by
    intro i; rw [hall (i + 1)]; rfl
  have hmerged : mergedResults outcomes maxResults = [] := by
    simp only [mergedResults, hpage]
    exact flatMap_const_nil _
  have hlist : searchList outcomes maxResults = [] := by
    simp [searchList, hmerged, dedupUrlAux]
  rw [search, hlist]

/-- Witness for the amended C4: all pages fail, `maxResults = 100`. -/
theorem claim4_retrieval_amended_witness :
    (∀ q : ℕ, (fun _ : ℕ => PageOutcome.fail) q = PageOutcome.fail) ∧
    search (fun _ : ℕ => PageOutcome.fail) 100 = .ok [] := by
  exact ⟨fun _ => rfl,
    (claim4_retrieval_amended (fun _ => PageOutcome.fail) 100 1).2.2 fun _ => rfl⟩

lemma dedupUrlAux_sublist (seen : List String) (l : List SerperSearchResult) :
    List.Sublist (dedupUrlAux seen l) l := by
  induction l generalizing seen with
  | nil => exact List.Sublist.refl _
  | cons r rest ih =>
    by_cases hseen : r.url ∈ seen
    · simp only [dedupUrlAux, if_pos hseen]
      exact (ih seen).cons r
    · simp only [dedupUrlAux, if_neg hseen]
      exact (ih (r.url :: seen)).cons₂ r

lemma dedupUrlAux_url_not_mem_seen (seen : List String) (l : List SerperSearchResult) :
    ∀ r ∈ dedupUrlAux seen l, r.url ∉ seen := by
  induction l generalizing seen with
  | nil => intro r hr; cases hr
  | cons x rest ih =>
    intro r hr
    by_cases hseen : x.url ∈ seen
    · simp only [dedupUrlAux, if_pos hseen] at hr
      exact ih seen r hr
    · simp only [dedupUrlAux, if_neg hseen, List.mem_cons] at hr
      rcases hr with rfl | hr
      · exact hseen
      · have := ih (x.url :: seen) r hr
        exact fun hmem => this (List.mem_cons_of_mem _ hmem)

lemma dedupUrlAux_pairwise (seen : List String) (l : List SerperSearchResult) :
    (dedupUrlAux seen l).Pairwise (fun a b => a.url ≠ b.url) := by
  induction l generalizing seen with
  | nil => exact List.Pairwise.nil
  | cons x rest ih =>
    by_cases hseen : x.url ∈ seen
    · simp only [dedupUrlAux, if_pos hseen]
      exact ih seen
    · simp only [dedupUrlAux, if_neg hseen]
      refine List.Pairwise.cons ?_ (ih (x.url :: seen))
      intro b hb
      have := dedupUrlAux_url_not_mem_seen (x.url :: seen) rest b hb
      exact fun hx => this (hx ▸ List.mem_cons_self _ _)

lemma dedupUrlAux_find? (seen : List String) (l : List SerperSearchResult) :
    ∀ r ∈ dedupUrlAux seen l, r.url ∉ seen →
      l.find? (fun x => x.url == r.url) = some r := by
  induction l generalizing seen with
  | nil => intro r hr; cases hr
  | cons x rest ih =>
    intro r hr hr_seen
    by_cases hseen : x.url ∈ seen
    · simp only [dedupUrlAux, if_pos hseen] at hr
      have hne : x.url ≠ r.url := fun h => hr_seen (h ▸ hseen)
      rw [List.find?_cons_of_neg _ (by simpa using hne)]
      exact ih seen r hr hr_seen
    · simp only [dedupUrlAux, if_neg hseen, List.mem_cons] at hr
      rcases hr with rfl | hr
      · rw [List.find?_cons_of_pos _ (by simp)]
      · have hne : r.url ≠ x.url := by
          have := dedupUrlAux_url_not_mem_seen (x.url :: seen) rest r hr
          exact fun h => this (h ▸ List.mem_cons_self _ _)
        rw [List.find?_cons_of_neg _ (by simpa using hne.symm)]
        refine ih (x.url :: seen) r hr ?_
        intro h
        rcases List.mem_cons.mp h with h1 | h2
        · exact hne h1
        · exact hr_seen h2

/-- C9: retrieval merges the parallel page results in provider order,
deduplicates by exact URL keeping the first-seen occurrence, and truncates
to `maxResults`: the returned list is a subsequence of the merged list with
pairwise-distinct URLs, of length at most `maxResults`, and each returned
entry is the first element of the merged list carrying its URL.  In the
concrete instance (final conjunct) two results share one URL and differ only
in snippet text; exactly the first-seen one is returned. -/
theorem claim9_url_dedup (outcomes : ℕ → PageOutcome) (maxResults : ℕ) :
    List.Sublist (searchList outcomes maxResults) (mergedResults outcomes maxResults) ∧
    (searchList outcomes maxResults).Pairwise (fun a b => a.url ≠ b.url) ∧
    (searchList outcomes maxResults).length ≤ maxResults ∧
    (∀ r ∈ searchList outcomes maxResults,
      (mergedResults outcomes maxResults).find? (fun x => x.url == r.url) = some r) ∧
    searchList
      (fun p => if p = 1 then
          PageOutcome.ok [⟨"t1", "u", "s1", none⟩, ⟨"t2", "u", "s2", none⟩]
        else PageOutcome.fail) 100
      = [⟨"u", "t1", "s1", 1, none⟩] := by
  have hsub : List.Sublist (searchList outcomes maxResults)
      (dedupUrlAux [] (mergedResults outcomes maxResults)) := by
    rw [searchList]
    exact List.take_sublist _ _
  refine ⟨?_, ?_, ?_, ?_, ?_⟩
  · exact hsub.trans (dedupUrlAux_sublist _ _)
  · exact (dedupUrlAux_pairwise [] _).sublist hsub
  · rw [searchList]
    exact List.length_take_le _ _
  · intro r hr
    exact dedupUrlAux_find? [] _ r (hsub.subset hr) (by simp)
  · simp [searchList, mergedResults, searchPage, dedupUrlAux, List.range_succ, List.mapIdx]

/-!
## Cache-key normalization (`CacheService.normalizeContentText`,
backend/src/db/cache.ts: `text.toLowerCase().trim().replace(/\s+/g, ' ')`)

Strings are modelled as `List Char`.  `isWs` models the whitespace class of
JS `trim` / `\s` (restricted to the common ASCII whitespace characters);
`Char.toLower` models the per-character ASCII lowering of `toLowerCase`.
-/

/-- Whitespace characters (model of JS `\s` / `trim`, ASCII subset). -/
def isWs (c : Char) : Bool := c = ' ' || c = '\t' || c = '\n' || c = '\r'

/-- `toLowerCase()`. -/
def lowerStr (l : List Char) : List Char := l.map Char.toLower

/-- Leading-whitespace removal (half of `trim()`). -/
def trimLeft (l : List Char) : List Char := l.dropWhile isWs

/-- Trailing-whitespace removal (other half of `trim()`). -/
def trimRight (l : List Char) : List Char := (l.reverse.dropWhile isWs).reverse

/-- `replace(/\s+/g, ' ')`: every maximal whitespace run becomes one space. -/
def collapseWs : List Char → List Char
  | [] => []
  | c :: rest =>
    if isWs c then ' ' :: collapseWs (rest.dropWhile isWs)
    else c :: collapseWs rest
termination_by l => l.length
decreasing_by
  · simp only [List.length_cons]
    have h := (List.dropWhile_sublist (l := rest) isWs).length_le
    omega
  · simp

/-- `CacheService.normalizeContentText`: lowercase, trim, collapse
whitespace runs. -/
def normalizeContentText (l : List Char) : List Char :=
  collapseWs (trimRight (trimLeft (lowerStr l)))

/-- The maximal non-whitespace runs of a string, in order (specification
vocabulary used to characterize the normalization). -/
def wordsOf : List Char → List (List Char)
  | [] => []
  | c :: rest =>
    if isWs c then wordsOf rest
    else (c :: rest.takeWhile (fun x => !isWs x)) ::
      wordsOf (rest.dropWhile (fun x => !isWs x))
termination_by l => l.length
decreasing_by
  · simp
  · simp only [List.length_cons]
    have h := (List.dropWhile_sublist (l := rest) (fun x => !isWs x)).length_le
    omega

/-- Words joined by single spaces. -/
def joinSp : List (List Char) → List Char
  | [] => []
  | [w] => w
  | w :: w' :: ws => w ++ ' ' :: joinSp (w' :: ws)

lemma trimRight_eq_nil_iff {l : List Char} :
    trimRight l = [] ↔ ∀ c ∈ l, isWs c = true := by
  simp [trimRight, List.dropWhile_eq_nil_iff]

lemma trimLeft_eq_nil (h : ∀ c ∈ l, isWs c = true) : trimLeft l = [] :=
  List.dropWhile_eq_nil_iff.mpr h

lemma trimRight_cons_neg {c : Char} {r : List Char} (h : isWs c = false) :
    trimRight (c :: r) = c :: trimRight r := by
  unfold trimRight
  rw [List.reverse_cons, List.dropWhile_append]
  by_cases hr : (List.dropWhile isWs r.reverse).isEmpty
  · rw [if_pos hr]
    rw [List.isEmpty_iff] at hr
    simp [List.dropWhile_cons, h, hr]
  · rw [if_neg hr]
    simp

lemma trimRight_cons_pos {c : Char} {r : List Char} (h : isWs c = true) :
    trimRight (c :: r) = if trimRight r = [] then [] else c :: trimRight r := by
  unfold trimRight
  rw [List.reverse_cons, List.dropWhile_append]
  by_cases hr : (List.dropWhile isWs r.reverse).isEmpty
  · rw [if_pos hr]
    rw [List.isEmpty_iff] at hr
    simp [List.dropWhile_cons, h, hr]
  · rw [if_neg hr]
    rw [List.isEmpty_iff] at hr
    rw [if_neg (by simp [hr])]
    simp

lemma trimLeft_trimRight_comm (l : List Char) :
    trimLeft (trimRight l) = trimRight (trimLeft l) := by
  induction l with
  | nil => rfl
  | cons c r ih =>
    by_cases hws : isWs c
    · rw [trimRight_cons_pos hws]
      by_cases hnil : trimRight r = []
      · rw [if_pos hnil]
        have hall : ∀ x ∈ r, isWs x = true := trimRight_eq_nil_iff.mp hnil
        rw [show trimLeft (c :: r) = trimLeft r by simp [trimLeft, List.dropWhile_cons, hws]]
        rw [trimLeft_eq_nil hall]
        rfl
      · rw [if_neg hnil]
        rw [show trimLeft (c :: trimRight r) = trimLeft (trimRight r) by
          simp [trimLeft, List.dropWhile_cons, hws]]
        rw [show trimLeft (c :: r) = trimLeft r by simp [trimLeft, List.dropWhile_cons, hws]]
        exact ih
    · replace hws : isWs c = false := by simpa using hws
      rw [trimRight_cons_neg hws]
      rw [show trimLeft (c :: trimRight r) = c :: trimRight r by
        simp [trimLeft, List.dropWhile_cons, hws]]
      rw [show trimLeft (c :: r) = c :: r by simp [trimLeft, List.dropWhile_cons, hws]]
      rw [trimRight_cons_neg hws]

lemma collapseWs_word_append {w l : List Char} (hw : ∀ c ∈ w, isWs c = false) :
    collapseWs (w ++ l) = w ++ collapseWs l := by
  induction w with
  | nil => rfl
  | cons c w' ih =>
    have hc : isWs c = false := hw c (List.mem_cons_self _ _)
    rw [List.cons_append, collapseWs, if_neg (by simp [hc])]
    rw [ih (fun x hx => hw x (List.mem_cons_of_mem _ hx))]
    rfl

lemma trimRight_word_append {w l : List Char} (hw : ∀ c ∈ w, isWs c = false) :
    trimRight (w ++ l) = w ++ trimRight l := by
  induction w with
  | nil => rfl
  | cons c w' ih =>
    have hc : isWs c = false := hw c (List.mem_cons_self _ _)
    rw [List.cons_append, trimRight_cons_neg hc,
      ih (fun x hx => hw x (List.mem_cons_of_mem _ hx))]
    rfl

lemma wordsOf_eq_nil_iff {l : List Char} :
    wordsOf l = [] ↔ ∀ c ∈ l, isWs c = true := by
  induction l with
  | nil => simp [wordsOf]
  | cons c r ih =>
    by_cases hws : isWs c
    · rw [wordsOf, if_pos hws]
      simp only [List.mem_cons]
      constructor
      · intro h x hx
        rcases hx with rfl | hx
        · exact hws
        · exact ih.mp h x hx
      · intro h
        exact ih.mpr (fun x hx => h x (Or.inr hx))
    · rw [wordsOf, if_neg hws]
      simp only [List.mem_cons]
      constructor
      · intro h; cases h
      · intro h
        exact absurd (h c (Or.inl rfl)) hws

lemma dropWhile_head_false {p : Char → Bool} {l : List Char} {d : Char} {t : List Char}
    (h : l.dropWhile p = d :: t) : p d = false := by
  induction l with
  | nil => cases h
  | cons c r ih =>
    rw [List.dropWhile_cons] at h
    by_cases hc : p c
    · rw [if_pos hc] at h
      exact ih h
    · rw [if_neg hc] at h
      cases h
      simpa using hc

lemma mem_takeWhile_nonWs {r : List Char} {x : Char}
    (hx : x ∈ r.takeWhile (fun y => !isWs y)) : isWs x = false := by
  have := List.mem_takeWhile_imp hx
  simpa using this

/-- Characterization of trim-then-collapse: it produces exactly the
whitespace-maximal words joined by single spaces. -/
lemma collapse_trim_eq_joinSp_aux :
    ∀ n (l : List Char), l.length ≤ n →
      collapseWs (trimRight (trimLeft l)) = joinSp (wordsOf l) := by
  intro n
  induction n with
  | zero =>
    intro l hl
    rw [List.length_eq_zero.mp (Nat.le_zero.mp hl)]
    simp [trimLeft, trimRight, collapseWs, wordsOf, joinSp]
  | succ n ih =>
    intro l hl
    match l with
    | [] => simp [trimLeft, trimRight, collapseWs, wordsOf, joinSp]
    | c :: r =>
      by_cases hws : isWs c
      · rw [show trimLeft (c :: r) = trimLeft r by simp [trimLeft, List.dropWhile_cons, hws]]
        rw [wordsOf, if_pos hws]
        exact ih r (by simpa using Nat.le_of_succ_le_succ (by simpa using hl))
      · replace hws : isWs c = false := by simpa using hws
        rw [show trimLeft (c :: r) = c :: r by simp [trimLeft, List.dropWhile_cons, hws]]
        have hsplit : c :: r = (c :: r.takeWhile (fun x => !isWs x)) ++
            r.dropWhile (fun x => !isWs x) := by
          rw [List.cons_append]
          rw [List.takeWhile_append_dropWhile]
        have hw_nonws : ∀ x ∈ c :: r.takeWhile (fun y => !isWs y), isWs x = false := by
          intro x hx
          rcases List.mem_cons.mp hx with rfl | hx
          · exact hws
          · exact mem_takeWhile_nonWs hx
        have hwords : wordsOf (c :: r) = (c :: r.takeWhile (fun x => !isWs x)) ::
            wordsOf (r.dropWhile (fun x => !isWs x)) := by
          rw [wordsOf, if_neg (by simp [hws])]
        rw [hwords]
        conv_lhs => rw [hsplit]
        rw [trimRight_word_append hw_nonws, collapseWs_word_append hw_nonws]
        have hrlen : (r.dropWhile (fun x => !isWs x)).length ≤ r.length :=
          (List.dropWhile_sublist _).length_le
        have hrn : r.length ≤ n := by
          have := hl
          simp only [List.length_cons] at this
          omega
        rcases hrest : r.dropWhile (fun x => !isWs x) with _ | ⟨d, rest'⟩
        · simp [trimRight, collapseWs, wordsOf, joinSp]
        · have hd : isWs d = true := by
            have := dropWhile_head_false hrest
            simpa using this
          by_cases hnil : trimRight (d :: rest') = []
          · rw [hnil]
            have hallws : ∀ x ∈ d :: rest', isWs x = true := trimRight_eq_nil_iff.mp hnil
            rw [wordsOf_eq_nil_iff.mpr hallws]
            simp [collapseWs, joinSp]
          · have hnil' : trimRight rest' ≠ [] := by
              intro h0
              exact hnil (by rw [trimRight_cons_pos hd, if_pos h0])
            have h4 : trimRight (d :: rest') = d :: trimRight rest' := by
              rw [trimRight_cons_pos hd, if_neg hnil']
            rw [h4, collapseWs, if_pos hd]
            have h5 : (trimRight rest').dropWhile isWs = trimRight (trimLeft rest') := by
              rw [← trimLeft_trimRight_comm]
              rfl
            rw [h5]
            have hlen' : rest'.length ≤ n := by
              rw [hrest] at hrlen
              simp only [List.length_cons] at hrlen
              omega
            rw [ih rest' hlen']
            have hwnil : wordsOf rest' ≠ [] := by
              intro h0
              have hall := wordsOf_eq_nil_iff.mp h0
              exact hnil' (trimRight_eq_nil_iff.mpr hall)
            have hwords' : wordsOf (d :: rest') = wordsOf rest' := by
              rw [wordsOf, if_pos hd]
            rw [hwords']
            rcases hws0 : wordsOf rest' with _ | ⟨w1, ws1⟩
            · exact absurd hws0 hwnil
            · rw [joinSp]

lemma collapse_trim_eq_joinSp (l : List Char) :
    collapseWs (trimRight (trimLeft l)) = joinSp (wordsOf l) :=
  collapse_trim_eq_joinSp_aux l.length l (le_refl _)

/-- `normalizeContentText` is exactly: lowercase, split into
whitespace-separated words, join with single spaces. -/
lemma normalize_eq_joinSp (l : List Char) :
    normalizeContentText l = joinSp (wordsOf (lowerStr l)) :=
  collapse_trim_eq_joinSp (lowerStr l)

lemma char_toNat_ofNat_valid {n : ℕ} (h : n.isValidChar) : (Char.ofNat n).toNat = n := by
  unfold Char.ofNat
  rw [dif_pos h]
  rfl

lemma toLower_toNat (c : Char) :
    (c.toLower).toNat = if c.toNat ≥ 65 ∧ c.toNat ≤ 90 then c.toNat + 32 else c.toNat := by
  unfold Char.toLower
  by_cases h : c.toNat ≥ 65 ∧ c.toNat ≤ 90
  · rw [if_pos h, if_pos h]
    have hvalid : (c.toNat + 32).isValidChar := Or.inl (by omega)
    exact char_toNat_ofNat_valid hvalid
  · rw [if_neg h, if_neg h]

lemma toLower_idem (c : Char) : (c.toLower).toLower = c.toLower := by
  have hcond : ¬((c.toLower).toNat ≥ 65 ∧ (c.toLower).toNat ≤ 90) := by
    rw [toLower_toNat]
    by_cases h : c.toNat ≥ 65 ∧ c.toNat ≤ 90
    · rw [if_pos h]; omega
    · rw [if_neg h]; omega
  conv_lhs => rw [Char.toLower]
  rw [if_neg hcond]

lemma char_toNat_injective : Function.Injective Char.toNat :=
  StrictMono.injective fun _ _ h => h

lemma isWs_iff (c : Char) :
    isWs c = true ↔ (c.toNat = 32 ∨ c.toNat = 9 ∨ c.toNat = 10 ∨ c.toNat = 13) := by
  have key : ∀ (d : Char), (c = d) ↔ c.toNat = d.toNat := by
    intro d
    constructor
    · rintro rfl; rfl
    · intro h; exact char_toNat_injective h
  simp only [isWs, Bool.or_eq_true, decide_eq_true_eq, key]
  have e1 : (' ').toNat = 32 := rfl
  have e2 : ('\t').toNat = 9 := rfl
  have e3 : ('\n').toNat = 10 := rfl
  have e4 : ('\r').toNat = 13 := rfl
  rw [e1, e2, e3, e4]
  tauto

lemma isWs_toLower (c : Char) : isWs c.toLower = isWs c := by
  by_cases h : c.toNat ≥ 65 ∧ c.toNat ≤ 90
  · have hl : c.toLower.toNat = c.toNat + 32 := by rw [toLower_toNat, if_pos h]
    have e1 : isWs c.toLower = false := by
      by_contra hb
      have hb' : isWs c.toLower = true := by
        revert hb; cases isWs c.toLower <;> simp
      have := (isWs_iff _).mp hb'
      rw [hl] at this
      omega
    have e2 : isWs c = false := by
      by_contra hb
      have hb' : isWs c = true := by
        revert hb; cases isWs c <;> simp
      have := (isWs_iff _).mp hb'
      omega
    rw [e1, e2]
  · have hl : c.toLower = c := by
      unfold Char.toLower
      rw [if_neg h]
    rw [hl]

lemma takeWhile_append_of_all {p : Char → Bool} {a b : List Char}
    (h : ∀ x ∈ a, p x = true) : (a ++ b).takeWhile p = a ++ b.takeWhile p := by
  induction a with
  | nil => rfl
  | cons c a' ih =>
    rw [List.cons_append, List.takeWhile_cons, if_pos (h c (List.mem_cons_self _ _)),
      ih (fun x hx => h x (List.mem_cons_of_mem _ hx))]
    rfl

lemma dropWhile_append_of_all {p : Char → Bool} {a b : List Char}
    (h : ∀ x ∈ a, p x = true) : (a ++ b).dropWhile p = b.dropWhile p := by
  induction a with
  | nil => rfl
  | cons c a' ih =>
    rw [List.cons_append, List.dropWhile_cons, if_pos (h c (List.mem_cons_self _ _))]
    exact ih (fun x hx => h x (List.mem_cons_of_mem _ hx))

lemma wordsOf_words_spec :
    ∀ n (l : List Char), l.length ≤ n →
      ∀ w ∈ wordsOf l, w ≠ [] ∧ ∀ c ∈ w, isWs c = false := by
  intro n
  induction n with
  | zero =>
    intro l hl
    rw [List.length_eq_zero.mp (Nat.le_zero.mp hl)]
    intro w hw
    simp [wordsOf] at hw
  | succ n ih =>
    intro l hl
    match l with
    | [] => intro w hw; simp [wordsOf] at hw
    | c :: r =>
      intro w hw
      by_cases hws : isWs c
      · rw [wordsOf, if_pos hws] at hw
        exact ih r (by simpa using Nat.le_of_succ_le_succ (by simpa using hl)) w hw
      · replace hws : isWs c = false := by simpa using hws
        rw [wordsOf, if_neg (by simp [hws])] at hw
        rcases List.mem_cons.mp hw with rfl | hw
        · refine ⟨by simp, ?_⟩
          intro x hx
          rcases List.mem_cons.mp hx with rfl | hx
          · exact hws
          · exact mem_takeWhile_nonWs hx
        · have hrlen : (r.dropWhile (fun x => !isWs x)).length ≤ n := by
            have h1 : (r.dropWhile (fun x => !isWs x)).length ≤ r.length :=
              (List.dropWhile_sublist _).length_le
            have h2 : r.length ≤ n := by
              simp only [List.length_cons] at hl
              omega
            omega
          exact ih _ hrlen w hw

lemma mem_joinSp {c : Char} :
    ∀ {ws : List (List Char)}, c ∈ joinSp ws → (∃ w ∈ ws, c ∈ w) ∨ c = ' '
  | [], h => by simp [joinSp] at h
  | [w], h => by
    rw [joinSp] at h
    exact Or.inl ⟨w, by simp, h⟩
  | w :: w' :: ws, h => by
    rw [joinSp] at h
    rcases List.mem_append.mp h with h1 | h1
    · exact Or.inl ⟨w, by simp, h1⟩
    · rcases List.mem_cons.mp h1 with rfl | h1
      · exact Or.inr rfl
      · rcases mem_joinSp h1 with ⟨v, hv, hcv⟩ | h2
        · exact Or.inl ⟨v, List.mem_cons_of_mem _ hv, hcv⟩
        · exact Or.inr h2

lemma wordsOf_word (w : List Char) (hw : w ≠ []) (hnws : ∀ c ∈ w, isWs c = false) :
    wordsOf w = [w] := by
  match w with
  | [] => exact absurd rfl hw
  | c :: w' =>
    have hc : isWs c = false := hnws c (List.mem_cons_self _ _)
    rw [wordsOf, if_neg (by simp [hc])]
    have htake : w'.takeWhile (fun x => !isWs x) = w' := by
      rw [List.takeWhile_eq_self_iff]
      intro x hx
      simp [hnws x (List.mem_cons_of_mem _ hx)]
    have hdrop : w'.dropWhile (fun x => !isWs x) = [] := by
      rw [List.dropWhile_eq_nil_iff]
      intro x hx
      simp [hnws x (List.mem_cons_of_mem _ hx)]
    rw [htake, hdrop]
    simp [wordsOf]

lemma wordsOf_joinSp :
    ∀ ws : List (List Char), (∀ w ∈ ws, w ≠ [] ∧ ∀ c ∈ w, isWs c = false) →
      wordsOf (joinSp ws) = ws
  | [], _ => by simp [joinSp, wordsOf]
  | [w], h => by
    rw [joinSp]
    exact wordsOf_word w (h w (by simp)).1 (h w (by simp)).2
  | w :: w' :: ws, h => by
    rw [joinSp]
    obtain ⟨hwne, hwnws⟩ := h w (by simp)
    match w, hwne with
    | c :: wtail, _ =>
      have hc : isWs c = false := hwnws c (List.mem_cons_self _ _)
      rw [List.cons_append, wordsOf, if_neg (by simp [hc])]
      have htail : ∀ x ∈ wtail, isWs x = false :=
        fun x hx => hwnws x (List.mem_cons_of_mem _ hx)
      have htake : (wtail ++ ' ' :: joinSp (w' :: ws)).takeWhile (fun x => !isWs x)
          = wtail := by
        rw [takeWhile_append_of_all (fun x hx => by simp [htail x hx])]
        rw [List.takeWhile_cons, if_neg (by simp [isWs])]
        simp
      have hdrop : (wtail ++ ' ' :: joinSp (w' :: ws)).dropWhile (fun x => !isWs x)
          = ' ' :: joinSp (w' :: ws) := by
        rw [dropWhile_append_of_all (fun x hx => by simp [htail x hx])]
        rw [List.dropWhile_cons, if_neg (by simp [isWs])]
      rw [htake, hdrop]
      have hrest : wordsOf (' ' :: joinSp (w' :: ws)) = wordsOf (joinSp (w' :: ws)) := by
        rw [wordsOf, if_pos (by simp [isWs])]
      rw [hrest, wordsOf_joinSp (w' :: ws) (fun v hv => h v (List.mem_cons_of_mem _ hv))]

lemma wordsOf_chars_mem :
    ∀ n (l : List Char), l.length ≤ n → ∀ w ∈ wordsOf l, ∀ c ∈ w, c ∈ l := by
  intro n
  induction n with
  | zero =>
    intro l hl
    rw [List.length_eq_zero.mp (Nat.le_zero.mp hl)]
    intro w hw
    simp [wordsOf] at hw
  | succ n ih =>
    intro l hl
    match l with
    | [] => intro w hw; simp [wordsOf] at hw
    | c :: r =>
      intro w hw x hx
      by_cases hws : isWs c
      · rw [wordsOf, if_pos hws] at hw
        have hr : r.length ≤ n := by simp only [List.length_cons] at hl; omega
        exact List.mem_cons_of_mem _ (ih r hr w hw x hx)
      · replace hws : isWs c = false := by simpa using hws
        rw [wordsOf, if_neg (by simp [hws])] at hw
        rcases List.mem_cons.mp hw with rfl | hw
        · rcases List.mem_cons.mp hx with rfl | hx
          · exact List.mem_cons_self _ _
          · exact List.mem_cons_of_mem _ ((List.takeWhile_sublist _).subset hx)
        · have hrlen : (r.dropWhile (fun y => !isWs y)).length ≤ n := by
            have h1 : (r.dropWhile (fun y => !isWs y)).length ≤ r.length :=
              (List.dropWhile_sublist _).length_le
            simp only [List.length_cons] at hl
            omega
          have := ih _ hrlen w hw x hx
          exact List.mem_cons_of_mem _ ((List.dropWhile_sublist _).subset this)

/-- Normalization is idempotent: the output of `normalizeContentText` is
already lowercase with single-space-separated words, so normalizing it again
changes nothing. -/
lemma normalize_idem (l : List Char) :
    normalizeContentText (normalizeContentText l) = normalizeContentText l := by
  rw [normalize_eq_joinSp l]
  set ws := wordsOf (lowerStr l) with hws
  have hwords : ∀ w ∈ ws, w ≠ [] ∧ ∀ c ∈ w, isWs c = false :=
    wordsOf_words_spec (lowerStr l).length (lowerStr l) (le_refl _)
  have hfix : ∀ c ∈ joinSp ws, c.toLower = c := by
    intro c hc
    rcases mem_joinSp hc with ⟨w, hw, hcw⟩ | rfl
    · have hcl : c ∈ lowerStr l :=
        wordsOf_chars_mem (lowerStr l).length (lowerStr l) (le_refl _) w (hws ▸ hw) c hcw
      obtain ⟨c₀, _, rfl⟩ := List.mem_map.mp hcl
      exact toLower_idem c₀
    · decide
  have hlower : lowerStr (joinSp ws) = joinSp ws := by
    rw [lowerStr]
    calc (joinSp ws).map Char.toLower = (joinSp ws).map id := List.map_congr_left hfix
      _ = joinSp ws := List.map_id _
  rw [normalize_eq_joinSp, hlower, wordsOf_joinSp ws hwords]

/-!
## Result cache (`CacheService`, backend/src/db/cache.ts, and the `analyses`
table of backend/src/db/schema.ts)

The SQLite table is modelled as a list of rows in insertion order.  Note the
row has no summary-translations value: `set`'s INSERT statement names ten
columns and `summary_translations` is not among them, and neither `get` nor
`getShared` reads it.  Timestamps (`created_at`, `datetime('now')`) are
modelled as integer seconds.
-/

/-- The result shape assembled by `FactCheckerService.analyzePost`
(backend/src/services/factChecker.ts lines 105-118). -/
structure AnalysisResult where
  id : String
  contentText : List Char
  accuracyScore : ℚ
  agreementScore : ℚ
  disagreementScore : ℚ
  neutralScore : ℚ
  summary : String
  summaryTranslations : List (String × String)
  sources : List Source
  totalSourcesRetrieved : ℕ
  analyzedAt : ℤ
  cached : Bool
deriving DecidableEq, Repr

/-- One row of the `analyses` table. -/
structure CacheRow where
  id : String
  contentText : List Char
  contentTextNormalized : List Char
  accuracyScore : ℚ
  agreementScore : ℚ
  disagreementScore : ℚ
  neutralScore : ℚ
  summary : String
  sources : List Source
  totalSourcesRetrieved : ℕ
  createdAt : ℤ
deriving DecidableEq, Repr

/-- TTL: `datetime(created_at, '+7 days')`, in seconds. -/
def ttlSeconds : ℤ := 7 * 86400

/-- The WHERE clause of `CacheService.get`:
`content_text_normalized = ? AND datetime(created_at, '+7 days') > datetime('now')`. -/
def rowMatches (now : ℤ) (key : List Char) (row : CacheRow) : Bool :=
  row.contentTextNormalized = key && row.createdAt + ttlSeconds > now

/-- `ORDER BY created_at DESC LIMIT 1` on the matching rows: the row with
the greatest `created_at` (earliest-inserted wins ties). -/
def newestRow : List CacheRow → Option CacheRow
  | [] => none
  | row :: rest =>
    match newestRow rest with
    | none => some row
    | some best => if best.createdAt > row.createdAt then some best else some row

/-- Build the returned `AnalysisResult` from a row as `CacheService.get`
does: no summary-translations field is read (the returned object simply
lacks it, modelled as `[]`), `total_sources_retrieved || 10` maps a falsy
stored count to 10, and `cached` is `true`. -/
def resultOfRow (row : CacheRow) (cached : Bool) : AnalysisResult :=
  ⟨row.id, row.contentText, row.accuracyScore, row.agreementScore,
    row.disagreementScore, row.neutralScore, row.summary, [], row.sources,
    if row.totalSourcesRetrieved = 0 then 10 else row.totalSourcesRetrieved,
    row.createdAt, cached⟩

/-- `CacheService.get`. -/
def cacheGet (cache : List CacheRow) (now : ℤ) (contentText : List Char) :
    Option AnalysisResult :=
  let normalized := normalizeContentText contentText
  match newestRow (cache.filter (rowMatches now normalized)) with
  | none => none
  | some row => some (resultOfRow row true)

/-- `CacheService.set`: INSERT a new row (never mutates existing rows);
`created_at` takes the current time by column default.  The row stores ten
columns — `summary_translations` is not one of them. -/
def cacheSet (cache : List CacheRow) (result : AnalysisResult) (now : ℤ) : List CacheRow :=
  cache ++ [⟨result.id, result.contentText, normalizeContentText result.contentText,
    result.accuracyScore, result.agreementScore, result.disagreementScore,
    result.neutralScore, result.summary, result.sources,
    result.totalSourcesRetrieved, now⟩]

/-- `CacheService.getShared`: exact id lookup (`LIMIT 1`, insertion order),
TTL-exempt, `cached := false`. -/
def getShared (cache : List CacheRow) (id : String) : Option AnalysisResult :=
  match cache.find? (fun row => row.id == id) with
  | none => none
  | some row => some (resultOfRow row false)

lemma newestRow_eq_none_iff (l : List CacheRow) : newestRow l = none ↔ l = [] := by
  cases l with
  | nil => simp [newestRow]
  | cons x rest =>
    simp only [newestRow]
    rcases h : newestRow rest with _ | best
    · simp
    · simp only [List.cons_ne_nil, iff_false]
      intro hcontra
      split at hcontra <;> cases hcontra

lemma newestRow_spec (l : List CacheRow) (row : CacheRow) (h : newestRow l = some row) :
    row ∈ l ∧ ∀ r' ∈ l, r'.createdAt ≤ row.createdAt := by
  induction l generalizing row with
  | nil => cases h
  | cons x rest ih =>
    rcases hrest : newestRow rest with _ | best <;>
      simp only [newestRow, hrest] at h
    · have hnil : rest = [] := (newestRow_eq_none_iff rest).mp hrest
      cases h
      subst hnil
      refine ⟨List.mem_cons_self _ _, ?_⟩
      intro r' hr'
      rcases List.mem_cons.mp hr' with rfl | hr'
      · exact le_refl _
      · cases hr'
    · obtain ⟨hmem, hmax⟩ := ih best hrest
      by_cases hgt : best.createdAt > x.createdAt
      · rw [if_pos hgt] at h
        cases h
        refine ⟨List.mem_cons_of_mem _ hmem, ?_⟩
        intro r' hr'
        rcases List.mem_cons.mp hr' with rfl | hr'
        · exact le_of_lt hgt
        · exact hmax r' hr'
      · rw [if_neg hgt] at h
        cases h
        refine ⟨List.mem_cons_self _ _, ?_⟩
        intro r' hr'
        rcases List.mem_cons.mp hr' with rfl | hr'
        · exact le_refl _
        · exact le_trans (hmax r' hr') (by omega)

lemma newestRow_append_last (l : List CacheRow) (row : CacheRow)
    (h : ∀ r' ∈ l, r'.createdAt < row.createdAt) :
    newestRow (l ++ [row]) = some row := by
  induction l with
  | nil => rfl
  | cons x rest ih =>
    rw [List.cons_append]
    simp only [newestRow, ih (fun r' hr' => h r' (List.mem_cons_of_mem _ hr'))]
    rw [if_pos (h x (List.mem_cons_self _ _))]

/-- C6: cache-key normalization lowercases, trims, and collapses every
whitespace run to one space, so two texts with the same sequence of
lowercased whitespace-separated words get the same key; normalization is
idempotent; and a `set` followed by a `get` with any case/whitespace variant
of the stored text returns the stored entry (`cached` marked true). -/
theorem claim6_cache_normalization :
    (∀ s t : List Char, wordsOf (lowerStr s) = wordsOf (lowerStr t) →
      normalizeContentText s = normalizeContentText t) ∧
    (∀ s : List Char,
      normalizeContentText (normalizeContentText s) = normalizeContentText s) ∧
    normalizeContentText " Test  Claim ".toList = normalizeContentText "test claim".toList ∧
    (∀ (cache : List CacheRow) (r : AnalysisResult) (now : ℤ) (v : List Char),
      wordsOf (lowerStr v) = wordsOf (lowerStr r.contentText) →
      (∀ row ∈ cache, row.createdAt < now) →
      ∃ res, cacheGet (cacheSet cache r now) now v = some res ∧
        res.id = r.id ∧ res.agreementScore = r.agreementScore ∧
        res.disagreementScore = r.disagreementScore ∧
        res.neutralScore = r.neutralScore ∧
        res.accuracyScore = r.accuracyScore ∧ res.summary = r.summary ∧
        res.sources = r.sources ∧ res.cached = true) := by
  refine ⟨?_, normalize_idem, ?_, ?_⟩
  · intro s t h
    rw [normalize_eq_joinSp, normalize_eq_joinSp, h]
  · simp [normalizeContentText, lowerStr, trimLeft, trimRight, collapseWs, isWs]
  · intro cache r now v hvar hold
    have hkey : normalizeContentText v = normalizeContentText r.contentText := by
      rw [normalize_eq_joinSp, normalize_eq_joinSp, hvar]
    set newRow : CacheRow := ⟨r.id, r.contentText, normalizeContentText r.contentText,
      r.accuracyScore, r.agreementScore, r.disagreementScore, r.neutralScore,
      r.summary, r.sources, r.totalSourcesRetrieved, now⟩ with hnew
    have hmatch : rowMatches now (normalizeContentText v) newRow = true := by
      simp only [rowMatches, hnew, Bool.and_eq_true, decide_eq_true_eq]
      exact ⟨hkey.symm, by simp [ttlSeconds]⟩
    have hfilter : (cacheSet cache r now).filter (rowMatches now (normalizeContentText v))
        = cache.filter (rowMatches now (normalizeContentText v)) ++ [newRow] := by
      rw [cacheSet, List.filter_append]
      simp [hmatch, hnew]
    have hmax : ∀ r' ∈ cache.filter (rowMatches now (normalizeContentText v)),
        r'.createdAt < newRow.createdAt := by
      intro r' hr'
      exact hold r' (List.mem_of_mem_filter hr')
    refine ⟨resultOfRow newRow true, ?_, rfl, rfl, rfl, rfl, rfl, rfl, rfl, rfl⟩
    simp only [cacheGet, hfilter, newestRow_append_last _ _ hmax]

/-- Witness for C6: store a result for `"test claim"`, read it back with
`" Test  Claim "`. -/
theorem claim6_cache_normalization_witness :
    (wordsOf (lowerStr " Test  Claim ".toList) = wordsOf (lowerStr "test claim".toList)) ∧
    (∃ res, cacheGet
        (cacheSet []
          (⟨"id1", "test claim".toList, 90, 60, 25, 15, "sum", [], [], 20, 0, false⟩ :
            AnalysisResult) 0)
        0 " Test  Claim ".toList = some res ∧
      res.id = "id1" ∧ res.agreementScore = 60 ∧ res.disagreementScore = 25 ∧
      res.neutralScore = 15 ∧ res.accuracyScore = 90 ∧ res.summary = "sum" ∧
      res.sources = [] ∧ res.cached = true) := by
  have hvar : wordsOf (lowerStr " Test  Claim ".toList)
      = wordsOf (lowerStr "test claim".toList) := by
    simp [wordsOf, lowerStr, isWs]
  refine ⟨hvar, ?_⟩
  exact claim6_cache_normalization.2.2.2 []
    (⟨"id1", "test claim".toList, 90, 60, 25, 15, "sum", [], [], 20, 0, false⟩ :
      AnalysisResult) 0 " Test  Claim ".toList hvar (by simp)

/-- C7: `get` returns only entries whose `createdAt` is within the 7-day
TTL, picks the most recent matching entry, marks the returned copy `cached`,
and returns nothing when no entry matches or all matches are expired; an
entry exactly 7 days + 1 second old fails the TTL predicate, one 6 days old
passes it. -/
theorem claim7_cache_ttl :
    (∀ (cache : List CacheRow) (now : ℤ) (text : List Char) (res : AnalysisResult),
      cacheGet cache now text = some res →
      res.cached = true ∧
      ∃ row ∈ cache, rowMatches now (normalizeContentText text) row = true ∧
        res = resultOfRow row true ∧
        ∀ row' ∈ cache, rowMatches now (normalizeContentText text) row' = true →
          row'.createdAt ≤ row.createdAt) ∧
    (∀ (cache : List CacheRow) (now : ℤ) (text : List Char),
      (∀ row ∈ cache, rowMatches now (normalizeContentText text) row = false) →
      cacheGet cache now text = none) ∧
    (∀ (row : CacheRow) (now : ℤ),
      (row.createdAt = now - ttlSeconds - 1 →
        rowMatches now row.contentTextNormalized row = false) ∧
      (row.createdAt = now - 6 * 86400 →
        rowMatches now row.contentTextNormalized row = true)) := by
  refine ⟨?_, ?_, ?_⟩
  · intro cache now text res h
    rw [cacheGet] at h
    rcases hnr : newestRow (cache.filter (rowMatches now (normalizeContentText text)))
      with _ | row
    · rw [hnr] at h; cases h
    · rw [hnr] at h
      cases h
      obtain ⟨hmem, hmax⟩ := newestRow_spec _ _ hnr
      refine ⟨rfl, row, List.mem_of_mem_filter hmem, List.of_mem_filter hmem, rfl, ?_⟩
      intro row' hrow' hmatch'
      exact hmax row' (List.mem_filter.mpr ⟨hrow', hmatch'⟩)
  · intro cache now text hall
    rw [cacheGet]
    have hfilter : cache.filter (rowMatches now (normalizeContentText text)) = [] := by
      rw [List.filter_eq_nil_iff]
      intro row hrow
      simp [hall row hrow]
    rw [hfilter]
    rfl
  · intro row now
    constructor
    · intro h
      simp [rowMatches, h, ttlSeconds]
      all_goals omega
    · intro h
      simp [rowMatches, h, ttlSeconds]
      all_goals omega

/-- Witness for C7: at `now = 0`, a matching entry created 7 days + 1 second
ago (`-604801`) is rejected and `get` returns nothing; with an additional
entry created 6 days ago (`-518400`) `get` returns that entry, `cached`
true. -/
theorem claim7_cache_ttl_witness :
    (∀ row ∈ [(⟨"a", "claim".toList, "claim".toList, 90, 50, 30, 20, "s", [], 20,
        -604801⟩ : CacheRow)],
      rowMatches 0 (normalizeContentText "claim".toList) row = false) ∧
    cacheGet [(⟨"a", "claim".toList, "claim".toList, 90, 50, 30, 20, "s", [], 20,
        -604801⟩ : CacheRow)] 0 "claim".toList = none ∧
    ((resultOfRow (⟨"b", "claim".toList, "claim".toList, 90, 50, 30, 20, "s", [], 20,
        -518400⟩ : CacheRow) true).cached = true ∧
      ∃ row ∈ [(⟨"a", "claim".toList, "claim".toList, 90, 50, 30, 20, "s", [], 20,
          -604801⟩ : CacheRow),
        (⟨"b", "claim".toList, "claim".toList, 90, 50, 30, 20, "s", [], 20,
          -518400⟩ : CacheRow)],
        rowMatches 0 (normalizeContentText "claim".toList) row = true ∧
        resultOfRow (⟨"b", "claim".toList, "claim".toList, 90, 50, 30, 20, "s", [], 20,
          -518400⟩ : CacheRow) true = resultOfRow row true ∧
        ∀ row' ∈ [(⟨"a", "claim".toList, "claim".toList, 90, 50, 30, 20, "s", [], 20,
            -604801⟩ : CacheRow),
          (⟨"b", "claim".toList, "claim".toList, 90, 50, 30, 20, "s", [], 20,
            -518400⟩ : CacheRow)],
          rowMatches 0 (normalizeContentText "claim".toList) row' = true →
            row'.createdAt ≤ row.createdAt) := by
  have hnorm : normalizeContentText "claim".toList = "claim".toList := by
    simp [normalizeContentText, lowerStr, trimLeft, trimRight, collapseWs, isWs]
  have hexp : ∀ row ∈ [(⟨"a", "claim".toList, "claim".toList, 90, 50, 30, 20, "s", [], 20,
      -604801⟩ : CacheRow)],
      rowMatches 0 (normalizeContentText "claim".toList) row = false := by
    intro row hrow
    simp only [List.mem_singleton] at hrow
    subst hrow
    simp [rowMatches, ttlSeconds,
      normalizeContentText, lowerStr, trimLeft, trimRight, collapseWs, isWs]
  refine ⟨hexp, claim7_cache_ttl.2.1 _ 0 _ hexp, ?_⟩
  have hsome : cacheGet [(⟨"a", "claim".toList, "claim".toList, 90, 50, 30, 20, "s", [], 20,
      -604801⟩ : CacheRow),
      (⟨"b", "claim".toList, "claim".toList, 90, 50, 30, 20, "s", [], 20,
      -518400⟩ : CacheRow)] 0 "claim".toList
      = some (resultOfRow (⟨"b", "claim".toList, "claim".toList, 90, 50, 30, 20, "s", [], 20,
        -518400⟩ : CacheRow) true) := by
    simp [cacheGet, rowMatches, ttlSeconds, newestRow, List.filter,
      normalizeContentText, lowerStr, trimLeft, trimRight, collapseWs, isWs]
  exact claim7_cache_ttl.1 _ 0 _ _ hsome

/-- C10: the cache round trip drops summary translations.  `set` writes a
row independent of the `summaryTranslations` field (the INSERT names no
`summary_translations` column), and every result constructed by `get` /
`getShared` carries no translations. -/
theorem claim10_translations_not_cached :
    (∀ (cache : List CacheRow) (r : AnalysisResult) (now : ℤ)
        (tr : List (String × String)),
      cacheSet cache { r with summaryTranslations := tr } now = cacheSet cache r now) ∧
    (∀ (cache : List CacheRow) (now : ℤ) (text : List Char) (res : AnalysisResult),
      cacheGet cache now text = some res → res.summaryTranslations = []) ∧
    (∀ (cache : List CacheRow) (id : String) (res : AnalysisResult),
      getShared cache id = some res → res.summaryTranslations = []) := by
  refine ⟨?_, ?_, ?_⟩
  · intro cache r now tr
    rfl
  · intro cache now text res h
    rw [cacheGet] at h
    rcases hnr : newestRow (cache.filter (rowMatches now (normalizeContentText text)))
      with _ | row <;> rw [hnr] at h
    · cases h
    · cases h
      rfl
  · intro cache id res h
    rw [getShared] at h
    rcases hf : cache.find? (fun row => row.id == id) with _ | row <;> rw [hf] at h
    · cases h
    · cases h
      rfl

/-- Witness for C10: a freshly analyzed result carrying a translation loses
it across set-then-get. -/
theorem claim10_translations_not_cached_witness :
    cacheSet []
      (⟨"id1", "test claim".toList, 90, 60, 25, 15, "sum", [("ar", "x")], [], 20, 0,
        false⟩ : AnalysisResult) 0
      = cacheSet []
        (⟨"id1", "test claim".toList, 90, 60, 25, 15, "sum", [], [], 20, 0,
          false⟩ : AnalysisResult) 0 ∧
    (∀ res, cacheGet
        (cacheSet []
          (⟨"id1", "test claim".toList, 90, 60, 25, 15, "sum", [("ar", "x")], [], 20, 0,
            false⟩ : AnalysisResult) 0) 0 "test claim".toList = some res →
      res.summaryTranslations = []) := by
  constructor
  · exact claim10_translations_not_cached.1 []
      (⟨"id1", "test claim".toList, 90, 60, 25, 15, "sum", [], [], 20, 0,
        false⟩ : AnalysisResult) 0 [("ar", "x")]
  · intro res h
    exact claim10_translations_not_cached.2.1 _ 0 _ res h

/-!
## Domain deduplication for display
(`FactCheckerService.getDomain` / `deduplicateSources`,
backend/src/services/factChecker.ts lines 17-42)
-/

/-- JS `String.prototype.replace` with a string pattern: replaces the FIRST
occurrence of `pat` — anywhere in the string, not only a leading one. -/
def replaceFirst (pat rep : List Char) : List Char → List Char
  | [] => []
  | c :: rest =>
    if pat.isPrefixOf (c :: rest) then rep ++ (c :: rest).drop pat.length
    else c :: replaceFirst pat rep rest

/-- `new URL(url).hostname`, modelled for absolute `scheme://host[/...]`
URLs: the characters between `"://"` and the first `/ ? # :`, lowercased;
`none` models the constructor throwing on URLs without `"://"`. -/
def hostAfterScheme : List Char → Option (List Char)
  | ':' :: '/' :: '/' :: rest => some rest
  | _ :: rest => hostAfterScheme rest
  | [] => none

def parseHost (url : List Char) : Option (List Char) :=
  match hostAfterScheme url with
  | none => none
  | some rest =>
    some ((rest.takeWhile fun c => !(c = '/' || c = '?' || c = '#' || c = ':')).map
      Char.toLower)

/-- `FactCheckerService.getDomain`: `urlObj.hostname.replace('www.', '')` —
the first occurrence of `"www."` in the hostname is removed (the catch
returns the raw URL when parsing fails). -/
def getDomain (url : List Char) : List Char :=
  match parseHost url with
  | some host => replaceFirst "www.".toList [] host
  | none => url

/-- The dedup key as the claim words it: only a LEADING `"www."` stripped
from the hostname (stated for comparison with `getDomain`). -/
def claimedDomain (url : List Char) : List Char :=
  match parseHost url with
  | some host => if "www.".toList.isPrefixOf host then host.drop 4 else host
  | none => url

/-- `FactCheckerService.deduplicateSources`: the `seenDomains` loop, keyed
by `getDomain`, keeping the first-seen source per domain. -/
def dedupDomainsAux (seen : List (List Char)) : List Source → List Source
  | [] => []
  | s :: rest =>
    if getDomain s.url ∈ seen then dedupDomainsAux seen rest
    else s :: dedupDomainsAux (getDomain s.url :: seen) rest

def deduplicateSources (sources : List Source) : List Source :=
  dedupDomainsAux [] sources

/-- The deduplication the claim describes, keyed by `claimedDomain`
(leading-only strip), for comparison. -/
def claimedDedupAux (seen : List (List Char)) : List Source → List Source
  | [] => []
  | s :: rest =>
    if claimedDomain s.url ∈ seen then claimedDedupAux seen rest
    else s :: claimedDedupAux (claimedDomain s.url :: seen) rest

def claimedDedup (sources : List Source) : List Source :=
  claimedDedupAux [] sources

/-- C8 counterexample: `getDomain` removes `"www."` anywhere in the
hostname, not only a leading one, so `files.www.example.com` and
`files.example.com` collapse to the same key and the second source is
dropped, while the claimed leading-only strip keeps both. -/
theorem claim8_counterexample :
    getDomain "https://files.www.example.com/a".toList = "files.example.com".toList ∧
    claimedDomain "https://files.www.example.com/a".toList
      = "files.www.example.com".toList ∧
    deduplicateSources
      [⟨"https://files.www.example.com/a".toList, "t1", Relevance.supporting⟩,
       ⟨"https://files.example.com/b".toList, "t2", Relevance.supporting⟩]
      = [⟨"https://files.www.example.com/a".toList, "t1", Relevance.supporting⟩] ∧
    claimedDedup
      [⟨"https://files.www.example.com/a".toList, "t1", Relevance.supporting⟩,
       ⟨"https://files.example.com/b".toList, "t2", Relevance.supporting⟩]
      = [⟨"https://files.www.example.com/a".toList, "t1", Relevance.supporting⟩,
         ⟨"https://files.example.com/b".toList, "t2", Relevance.supporting⟩] := by
  refine ⟨?_, ?_, ?_, ?_⟩ <;> decide

lemma dedupDomainsAux_sublist (seen : List (List Char)) (l : List Source) :
    List.Sublist (dedupDomainsAux seen l) l := by
  induction l generalizing seen with
  | nil => exact List.Sublist.refl _
  | cons s rest ih =>
    by_cases hseen : getDomain s.url ∈ seen
    · simp only [dedupDomainsAux, if_pos hseen]
      exact (ih seen).cons s
    · simp only [dedupDomainsAux, if_neg hseen]
      exact (ih (getDomain s.url :: seen)).cons₂ s

lemma dedupDomainsAux_not_mem_seen (seen : List (List Char)) (l : List Source) :
    ∀ s ∈ dedupDomainsAux seen l, getDomain s.url ∉ seen := by
  induction l generalizing seen with
  | nil => intro s hs; cases hs
  | cons x rest ih =>
    intro s hs
    by_cases hseen : getDomain x.url ∈ seen
    · simp only [dedupDomainsAux, if_pos hseen] at hs
      exact ih seen s hs
    · simp only [dedupDomainsAux, if_neg hseen, List.mem_cons] at hs
      rcases hs with rfl | hs
      · exact hseen
      · have := ih (getDomain x.url :: seen) s hs
        exact fun hmem => this (List.mem_cons_of_mem _ hmem)

lemma dedupDomainsAux_pairwise (seen : List (List Char)) (l : List Source) :
    (dedupDomainsAux seen l).Pairwise (fun a b => getDomain a.url ≠ getDomain b.url) := by
  induction l generalizing seen with
  | nil => exact List.Pairwise.nil
  | cons x rest ih =>
    by_cases hseen : getDomain x.url ∈ seen
    · simp only [dedupDomainsAux, if_pos hseen]
      exact ih seen
    · simp only [dedupDomainsAux, if_neg hseen]
      refine List.Pairwise.cons ?_ (ih (getDomain x.url :: seen))
      intro b hb
      have := dedupDomainsAux_not_mem_seen (getDomain x.url :: seen) rest b hb
      exact fun hx => this (hx ▸ List.mem_cons_self _ _)

lemma dedupDomainsAux_find? (seen : List (List Char)) (l : List Source) :
    ∀ s ∈ dedupDomainsAux seen l, getDomain s.url ∉ seen →
      l.find? (fun x => getDomain x.url == getDomain s.url) = some s := by
  induction l generalizing seen with
  | nil => intro s hs; cases hs
  | cons x rest ih =>
    intro s hs hs_seen
    by_cases hseen : getDomain x.url ∈ seen
    · simp only [dedupDomainsAux, if_pos hseen] at hs
      have hne : getDomain x.url ≠ getDomain s.url := fun h => hs_seen (h ▸ hseen)
      rw [List.find?_cons_of_neg _ (by simpa using hne)]
      exact ih seen s hs hs_seen
    · simp only [dedupDomainsAux, if_neg hseen, List.mem_cons] at hs
      rcases hs with rfl | hs
      · rw [List.find?_cons_of_pos _ (by simp)]
      · have hne : getDomain s.url ≠ getDomain x.url := by
          have := dedupDomainsAux_not_mem_seen (getDomain x.url :: seen) rest s hs
          exact fun h => this (h ▸ List.mem_cons_self _ _)
        rw [List.find?_cons_of_neg _ (by simpa using hne.symm)]
        refine ih (getDomain x.url :: seen) s hs ?_
        intro h
        rcases List.mem_cons.mp h with h1 | h2
        · exact hne h1
        · exact hs_seen h2

lemma countP_le_one_of_pairwise {l : List Source} {d : List Char}
    (hp : l.Pairwise (fun a b => getDomain a.url ≠ getDomain b.url)) :
    l.countP (fun s => getDomain s.url == d) ≤ 1 := by
  induction l with
  | nil => simp
  | cons x rest ih =>
    rw [List.pairwise_cons] at hp
    by_cases hx : getDomain x.url = d
    · have hrest : rest.countP (fun s => getDomain s.url == d) = 0 := by
        rw [List.countP_eq_zero]
        intro s hs
        have := hp.1 s hs
        simp only [beq_iff_eq]
        rw [← hx]
        exact fun h => this h.symm
      rw [List.countP_cons]
      simp [hx, hrest]
    · rw [List.countP_cons]
      simp only [beq_iff_eq, hx]
      simpa using ih hp.2

/-- C8 amended: display deduplication is per category with the first-seen
source kept per domain and a cap of 10, as claimed — but the domain key is
the hostname with the FIRST occurrence of `"www."` removed (JS
`replace('www.', '')`), not only a leading one.  For every source list
(in particular each per-category filter, e.g. 15 supporting sources of one
domain): the displayed list is at most 10 long, a subsequence of the input,
has pairwise-distinct domains — hence at most one entry of any single
domain — and keeps each domain's first-seen source. -/
theorem claim8_domain_dedup_amended (l : List Source) (d : List Char) :
    ((deduplicateSources l).take 10).length ≤ 10 ∧
    List.Sublist ((deduplicateSources l).take 10) l ∧
    ((deduplicateSources l).take 10).Pairwise
      (fun a b => getDomain a.url ≠ getDomain b.url) ∧
    ((deduplicateSources l).take 10).countP (fun s => getDomain s.url == d) ≤ 1 ∧
    (∀ s ∈ deduplicateSources l,
      l.find? (fun x => getDomain x.url == getDomain s.url) = some s) := by
  have hsub : List.Sublist ((deduplicateSources l).take 10) (deduplicateSources l) :=
    List.take_sublist _ _
  have hpair : ((deduplicateSources l).take 10).Pairwise
      (fun a b => getDomain a.url ≠ getDomain b.url) :=
    (dedupDomainsAux_pairwise [] l).sublist hsub
  refine ⟨List.length_take_le _ _, ?_, hpair, countP_le_one_of_pairwise hpair, ?_⟩
  · exact hsub.trans (dedupDomainsAux_sublist [] l)
  · intro s hs
    exact dedupDomainsAux_find? [] l s hs (by simp)

/-- Witness for the amended C8, on the counterexample's two-source list:
the first source survives deduplication, it is the first-seen entry for its
domain, and the displayed list respects the cap. -/
theorem claim8_domain_dedup_amended_witness :
    (⟨"https://files.www.example.com/a".toList, "t1", Relevance.supporting⟩ : Source)
      ∈ deduplicateSources
        [⟨"https://files.www.example.com/a".toList, "t1", Relevance.supporting⟩,
         ⟨"https://files.example.com/b".toList, "t2", Relevance.supporting⟩] ∧
    ([(⟨"https://files.www.example.com/a".toList, "t1", Relevance.supporting⟩ : Source),
      ⟨"https://files.example.com/b".toList, "t2", Relevance.supporting⟩].find?
        (fun x => getDomain x.url ==
          getDomain "https://files.www.example.com/a".toList)
      = some ⟨"https://files.www.example.com/a".toList, "t1", Relevance.supporting⟩) ∧
    ((deduplicateSources
      [⟨"https://files.www.example.com/a".toList, "t1", Relevance.supporting⟩,
       ⟨"https://files.example.com/b".toList, "t2", Relevance.supporting⟩]).take 10).length
      ≤ 10 := by
  have hmem : (⟨"https://files.www.example.com/a".toList, "t1",
      Relevance.supporting⟩ : Source)
      ∈ deduplicateSources
        [⟨"https://files.www.example.com/a".toList, "t1", Relevance.supporting⟩,
         ⟨"https://files.example.com/b".toList, "t2", Relevance.supporting⟩] := by
    decide
  exact ⟨hmem,
    (claim8_domain_dedup_amended _ "files.example.com".toList).2.2.2.2 _ hmem,
    (claim8_domain_dedup_amended _ "files.example.com".toList).1⟩

/-!
## Fact-check orchestrator (`FactCheckerService.analyzePost`,
backend/src/services/factChecker.ts lines 44-125)

`analyzePost` is modelled as a function of the outcomes of its two awaited
external calls (retrieval and analysis), the generated id and the current
time, transforming the cache state explicitly.
-/

/-- Per-request environment: outcomes of the awaited calls plus the
generated `uuidv4()` and the current time. -/
structure OrchestratorEnv where
  searchResult : Except String (List SerperSearchResult)
  analysis : Except String ClaudeAnalysis
  newId : String
  now : ℤ

/-- The zero-source error message (the spec's `NoSourcesFoundError`). -/
def noSourcesMsg : String :=
  "No sources found for this content. Please try a different query."

/-- `FactCheckerService.analyzePost`: cache check, retrieval, zero-source
guard, analysis, defensive percentage re-correction (`orchestratorCorrect`),
per-category domain deduplication capped at 10, result assembly, cache
write.  Returns the call's outcome together with the resulting cache
state. -/
def analyzePost (contentText : List Char) (env : OrchestratorEnv)
    (cache : List CacheRow) : Except String AnalysisResult × List CacheRow :=
  match cacheGet cache env.now contentText with
  | some cached => (.ok cached, cache)
  | none =>
    match env.searchResult with
    | .error e => (.error e, cache)
    | .ok sources =>
      if sources.length = 0 then (.error noSourcesMsg, cache)
      else
        match env.analysis with
        | .error e => (.error e, cache)
        | .ok analysis =>
          let corrected := orchestratorCorrect analysis.agreementScore
            analysis.disagreementScore analysis.neutralScore
          let returnedSources := analysis.sources
          let supporting := returnedSources.filter (fun s => s.relevance = .supporting)
          let contradicting :=
            returnedSources.filter (fun s => s.relevance = .contradicting)
          let neutral := returnedSources.filter (fun s => s.relevance = .neutral)
          let uniqueSupporting := (deduplicateSources supporting).take 10
          let uniqueContradicting := (deduplicateSources contradicting).take 10
          let uniqueNeutral := (deduplicateSources neutral).take 10
          let displaySources := uniqueSupporting ++ uniqueContradicting ++ uniqueNeutral
          let result : AnalysisResult := ⟨env.newId, contentText,
            analysis.accuracyScore, corrected.1, corrected.2.1, corrected.2.2,
            analysis.summary, analysis.summaryTranslations, displaySources,
            sources.length, env.now, false⟩
          (.ok result, cacheSet cache result env.now)

/-- C5: on a cache miss, when the Retriever resolves with zero sources,
`analyzePost` fails with the no-sources error and the cache is left exactly
as it was — no entry is written. -/
theorem claim5_no_sources_no_cache_write (contentText : List Char)
    (env : OrchestratorEnv) (cache : List CacheRow)
    (hmiss : cacheGet cache env.now contentText = none)
    (hzero : env.searchResult = .ok []) :
    analyzePost contentText env cache = (.error noSourcesMsg, cache) := by
  rw [analyzePost, hmiss, hzero]
  rfl

/-- Witness for C5: empty cache, zero retrieved sources. -/
theorem claim5_no_sources_no_cache_write_witness :
    cacheGet [] 0 "test claim".toList = none ∧
    (Except.ok [] : Except String (List SerperSearchResult)) = .ok [] ∧
    analyzePost "test claim".toList ⟨.ok [], .error "unused", "id1", 0⟩ []
      = (.error noSourcesMsg, []) := by
  refine ⟨rfl, rfl, ?_⟩
  exact claim5_no_sources_no_cache_write "test claim".toList
    ⟨.ok [], .error "unused", "id1", 0⟩ [] rfl rfl

end TruthMeter
